import Mathlib

/-!
Verification of the Suzuki–Trotter expansion module
(`qiskit/opflow/evolutions/trotterizations/suzuki.py`).

The module is embedded shallowly:

* Scalars (Python floats / complex numbers) are modelled as an arbitrary
  division ring `K`, with witnesses instantiated at `K = ℚ`.  The single
  transcendental operation used by the source, the float power
  `4 ** (1 / (2 * expansion_order - 1))` on line 99, is abstracted as a
  parameter `fourPow : ℚ → K` (intended meaning: `fourPow q = 4 ^ q`); no
  claim depends on its value, only on how the result enters the formula
  for `p_k` and on the list structure built from it.
* Terms of the weighted sum (`op_list` elements) are an opaque type `T`.
* The opaque exponentiated factor `(op * s).exp_i()` produced by the
  operator library is modelled as the pair of the term and the scalar it
  was multiplied by (`ExpFactor`): the algorithm never inspects factors,
  it only orders and counts them.
* Python list repetition `2 * lst` (line 100) is `pyListMul 2 lst`.
* The recursion of `_recursive_expansion` has no base case for
  `expansion_order ≤ 0` (Python would recurse without bound and die with
  a `RecursionError`); the embedding returns `Option`, with `none` at
  order `0` standing for that divergence.  Orders are `ℕ`; every
  non-positive Python order diverges identically.
-/

namespace Suzuki

/-- A concrete elementary-generator type used for witnesses: the two Pauli
generators appearing in the concrete scenarios of the specification. -/
inductive PGen where
  | X
  | Z
deriving DecidableEq, Repr

/-- Model of the opaque value `(op * s).exp_i()` built by the base case on
line 93 of the source: the term `op` together with the scalar `s` it was
multiplied by before exponentiation.  The factor is opaque to the
algorithm, which only orders and counts such values. -/
structure ExpFactor (T K : Type) where
  base : T
  scale : K
deriving DecidableEq, Repr

/-- Python list repetition `n * lst` (used as `2 * ...` on line 100 of the
source): `n` copies of the list concatenated, not element-wise scaling. -/
def pyListMul {α : Type} : ℕ → List α → List α
  | 0, _ => []
  | n + 1, l => l ++ pyListMul n l

/-- Line 99 of the source:
`p_k = (4 - 4 ** (1 / (2 * expansion_order - 1))) ** -1`.
The float power `4 ** (1 / (2 * expansion_order - 1))` is the abstracted
`fourPow` applied to the exact rational exponent. -/
def p_k {K : Type} [DivisionRing K] (fourPow : ℚ → K) (expansion_order : ℕ) : K :=
  (4 - fourPow (1 / (2 * (expansion_order : ℚ) - 1)))⁻¹

/-- Lines 91-104 of the source, `Suzuki._recursive_expansion`:

* `expansion_order = 1`: one factor `(op * (evo_time / reps)).exp_i()`
  per term, in the original order (line 93);
* `expansion_order = 2`: `list(reversed(half)) + half` where
  `half = _recursive_expansion(op_list, evo_time / 2, 1, reps)`
  (lines 95-97);
* otherwise: `side + middle + side` where
  `side = 2 * _recursive_expansion(op_list, evo_time * p_k, order - 2, reps)`
  and
  `middle = _recursive_expansion(op_list, evo_time * (1 - 4 * p_k), order - 2, reps)`
  (lines 99-104).

Order `0` (and, in Python, every non-positive order) has no base case and
recurses without bound; it is modelled as `none`. -/
def recursive_expansion {K : Type} [DivisionRing K] {T : Type}
    (fourPow : ℚ → K) (op_list : List T) (reps : ℕ) :
    K → ℕ → Option (List (ExpFactor T K))
  | _, 0 => none
  | evo_time, 1 => some (op_list.map fun op => ⟨op, evo_time / (reps : K)⟩)
  | evo_time, 2 =>
      (recursive_expansion fourPow op_list reps (evo_time / 2) 1).map
        fun half => half.reverse ++ half
  | evo_time, (k + 3) =>
      (recursive_expansion fourPow op_list reps
          (evo_time * p_k fourPow (k + 3)) (k + 1)).bind fun s =>
        (recursive_expansion fourPow op_list reps
            (evo_time * (1 - 4 * p_k fourPow (k + 3))) (k + 1)).map fun middle =>
          let side := pyListMul 2 s
          side ++ middle ++ side

/-- Modelled from the spec: `ComposedOp` (the opflow class is outside this
repository).  An ordered sequence of exponentiated factors, applied left
to right. -/
structure ComposedOp (F : Type) where
  oplist : List F
deriving DecidableEq, Repr

/-- Modelled from the spec: `ComposedOp.power` repeats the whole composed
sequence `n` times, concatenated, preserving internal order each time. -/
def ComposedOp.power {F : Type} (op : ComposedOp F) (n : ℕ) : ComposedOp F :=
  ⟨pyListMul n op.oplist⟩

/-- The error raised on line 58 of the source when the operand is neither
a `SummedOp` nor a `PauliSumOp` (Python `TypeError`). -/
inductive TrotterError where
  | typeError
deriving DecidableEq, Repr

/-- Modelled from the spec: the two admissible weighted-sum operand
shapes, `SummedOp` and `PauliSumOp` (both classes live outside this
repository; the spec states both expose the same ordered-terms plus
overall-coefficient shape), plus a constructor standing for every other
operand shape. -/
inductive Operand (T K : Type) where
  | summedOp (oplist : List T) (coeff : K)
  | pauliSumOp (oplist : List T) (coeff : K)
  | other
deriving DecidableEq, Repr

/-- Lines 56-70 of the source, `Suzuki.convert`:

* an operand that is neither a `SummedOp` nor a `PauliSumOp` raises
  `TypeError` (lines 57-58), before any recursion;
* otherwise the terms and coefficient are extracted and
  `_recursive_expansion(terms, coeff, order, reps)` is invoked
  (lines 60-66), the resulting list is wrapped in a `ComposedOp`
  (line 68), raised to the power `reps` (line 69) and reduced (line 70).

The library `reduce` is opaque to this module and is taken as a
parameter.  `none` propagates the divergence of the recursion. -/
def convert {K : Type} [DivisionRing K] {T : Type}
    (reduce : ComposedOp (ExpFactor T K) → ComposedOp (ExpFactor T K))
    (fourPow : ℚ → K) (order reps : ℕ) :
    Operand T K → Option (Except TrotterError (ComposedOp (ExpFactor T K)))
  | .other => some (.error .typeError)
  | .summedOp oplist coeff =>
      (recursive_expansion fourPow oplist reps coeff order).map fun comp_list =>
        let single_rep : ComposedOp (ExpFactor T K) := ⟨comp_list⟩
        let full_evo := single_rep.power reps
        .ok (reduce full_evo)
  | .pauliSumOp oplist coeff =>
      (recursive_expansion fourPow oplist reps coeff order).map fun comp_list =>
        let single_rep : ComposedOp (ExpFactor T K) := ⟨comp_list⟩
        let full_evo := single_rep.power reps
        .ok (reduce full_evo)

/-- Concrete instantiation of the abstracted float power for witnesses;
the structural claims hold for every instantiation. -/
def fourPowQ : ℚ → ℚ := fun _ => 0

/-! Helper lemmas shared by the claim theorems. -/

theorem pyListMul_two {α : Type} (l : List α) : pyListMul 2 l = l ++ l := by
  simp [pyListMul]

theorem pyListMul_length {α : Type} (n : ℕ) (l : List α) :
    (pyListMul n l).length = n * l.length := by
  induction n with
  | zero => simp [pyListMul]
  | succ n ih => simp [pyListMul, ih, Nat.succ_mul, Nat.add_comm]

/-- Totality of the recursion at every order at least `1` (the source
recursion strictly decreases the order by `1` or `2` until it reaches the
base case `1`). -/
theorem rec_total {K : Type} [DivisionRing K] {T : Type}
    (fourPow : ℚ → K) (L : List T) (r : ℕ) :
    ∀ k : ℕ, 1 ≤ k → ∀ t : K, ∃ l, recursive_expansion fourPow L r t k = some l := by
  intro k
  induction k using Nat.strong_induction_on with
  | _ k ih =>
    intro hk t
    match k, ih, hk with
    | 1, ih, _ =>
      exact ⟨L.map fun op => ⟨op, t / (r : K)⟩, by simp [recursive_expansion]⟩
    | 2, ih, _ =>
      exact ⟨(L.map fun op => ⟨op, t / 2 / (r : K)⟩).reverse ++
          (L.map fun op => ⟨op, t / 2 / (r : K)⟩),
        by simp [recursive_expansion]⟩
    | (j + 3), ih, _ =>
      obtain ⟨s, hs⟩ := ih (j + 1) (by omega) (by omega) (t * p_k fourPow (j + 3))
      obtain ⟨m, hm⟩ := ih (j + 1) (by omega) (by omega)
        (t * (1 - 4 * p_k fourPow (j + 3)))
      exact ⟨pyListMul 2 s ++ (m ++ pyListMul 2 s),
        by simp [recursive_expansion, hs, hm]⟩

/-- At every even order at least `2` the produced list is a palindrome:
the order-`2` case returns `reverse(half) ++ half` and the five-block case
assembles palindromic sub-lists symmetrically. -/
theorem rec_even_palindrome {K : Type} [DivisionRing K] {T : Type}
    (fourPow : ℚ → K) (L : List T) (r : ℕ) :
    ∀ k : ℕ, Even k → 2 ≤ k → ∀ (t : K) (l : List (ExpFactor T K)),
      recursive_expansion fourPow L r t k = some l → l.reverse = l := by
  intro k
  induction k using Nat.strong_induction_on with
  | _ k ih =>
    intro hke hk2 t l hl
    match k, ih, hke, hk2, hl with
    | 2, ih, _, _, hl =>
      simp only [recursive_expansion, Option.map_some', Option.some.injEq] at hl
      subst hl
      simp [List.reverse_append]
    | (j + 3), ih, hke, _, hl =>
      have h1 : Even (j + 1) := by rw [Nat.even_iff] at hke ⊢; omega
      have hjodd : j % 2 = 1 := by rw [Nat.even_iff] at hke; omega
      simp only [recursive_expansion] at hl
      rw [Option.bind_eq_some] at hl
      obtain ⟨s, hs, hl⟩ := hl
      rw [Option.map_eq_some'] at hl
      obtain ⟨m, hm, hl⟩ := hl
      simp only [pyListMul_two] at hl
      subst hl
      have hsrev := ih (j + 1) (by omega) h1 (by omega) _ _ hs
      have hmrev := ih (j + 1) (by omega) h1 (by omega) _ _ hm
      simp [List.reverse_append, hsrev, hmrev, List.append_assoc]

/-- At every even order at least `2` the recursion succeeds and the
produced list has exactly `2 * n * 5 ^ (k / 2 - 1)` factors for `n` input
terms. -/
theorem rec_even_length {K : Type} [DivisionRing K] {T : Type}
    (fourPow : ℚ → K) (L : List T) (r : ℕ) :
    ∀ k : ℕ, Even k → 2 ≤ k → ∀ t : K, ∃ l,
      recursive_expansion fourPow L r t k = some l ∧
      l.length = 2 * L.length * 5 ^ (k / 2 - 1) := by
  intro k
  induction k using Nat.strong_induction_on with
  | _ k ih =>
    intro hke hk2 t
    match k, ih, hke, hk2 with
    | 2, ih, _, _ =>
      refine ⟨(L.map fun op => ⟨op, t / 2 / (r : K)⟩).reverse ++
          (L.map fun op => ⟨op, t / 2 / (r : K)⟩),
        by simp [recursive_expansion], ?_⟩
      simp [two_mul]
    | (j + 3), ih, hke, _ =>
      have h1 : Even (j + 1) := by rw [Nat.even_iff] at hke ⊢; omega
      have hjodd : j % 2 = 1 := by rw [Nat.even_iff] at hke; omega
      obtain ⟨s, hs, hsl⟩ := ih (j + 1) (by omega) h1 (by omega)
        (t * p_k fourPow (j + 3))
      obtain ⟨m, hm, hml⟩ := ih (j + 1) (by omega) h1 (by omega)
        (t * (1 - 4 * p_k fourPow (j + 3)))
      refine ⟨pyListMul 2 s ++ (m ++ pyListMul 2 s),
        by simp [recursive_expansion, hs, hm], ?_⟩
      have hexp : (j + 3) / 2 - 1 = ((j + 1) / 2 - 1) + 1 := by omega
      simp only [List.length_append, pyListMul_length, hsl, hml, hexp, pow_succ]
      ring

/-- Claim C1: for every non-empty term list, scalar time `t`, reps at
least `1` and even order `k > 2`, the recursion returns the five-block
list `side ++ side ++ middle ++ side ++ side`, where `side` is the
expansion at time `t * p_k` and order `k - 2`, `middle` the expansion at
time `t * (1 - 4 * p_k)` and order `k - 2`, and
`p_k = 1 / (4 - 4 ^ (1 / (2 * k - 1)))` (the float power abstracted as
`fourPow`); the doubling of `side` is list concatenation of the same
computed list with itself. -/
theorem even_high_order_five_blocks {K : Type} [DivisionRing K] {T : Type}
    (fourPow : ℚ → K) (L : List T) (t : K) (k r : ℕ)
    (hL : L ≠ []) (hr : 1 ≤ r) (hk2 : 2 < k) (hke : Even k) :
    recursive_expansion fourPow L r t k =
      (recursive_expansion fourPow L r (t * p_k fourPow k) (k - 2)).bind fun side =>
        (recursive_expansion fourPow L r (t * (1 - 4 * p_k fourPow k)) (k - 2)).map
          fun middle => side ++ side ++ middle ++ side ++ side := by
  obtain ⟨j, rfl⟩ : ∃ j, k = j + 3 := ⟨k - 3, by omega⟩
  have h2 : j + 3 - 2 = j + 1 := by omega
  rw [h2]
  simp only [recursive_expansion]
  rcases hs : recursive_expansion fourPow L r (t * p_k fourPow (j + 3)) (j + 1) with _ | s
  · rfl
  rcases hm : recursive_expansion fourPow L r (t * (1 - 4 * p_k fourPow (j + 3))) (j + 1)
    with _ | m
  · rfl
  simp [pyListMul_two, List.append_assoc]

/-- Witness for C1 at order `4`, one `X` term, time `2`, reps `1`. -/
theorem even_high_order_five_blocks_witness :
    ([((1 : ℚ), PGen.X)] : List (ℚ × PGen)) ≠ [] ∧ (1 : ℕ) ≤ 1 ∧ 2 < 4 ∧ Even 4 ∧
    recursive_expansion fourPowQ [((1 : ℚ), PGen.X)] 1 (2 : ℚ) 4 =
      (recursive_expansion fourPowQ [((1 : ℚ), PGen.X)] 1
          ((2 : ℚ) * p_k fourPowQ 4) (4 - 2)).bind fun side =>
        (recursive_expansion fourPowQ [((1 : ℚ), PGen.X)] 1
            ((2 : ℚ) * (1 - 4 * p_k fourPowQ 4)) (4 - 2)).map
          fun middle => side ++ side ++ middle ++ side ++ side :=
  ⟨by simp, le_refl 1, by omega, by decide,
    even_high_order_five_blocks fourPowQ [((1 : ℚ), PGen.X)] (2 : ℚ) 4 1
      (by simp) (le_refl 1) (by omega) (by decide)⟩

/-- Claim C2: for every non-empty term list, scalar time and reps at
least `1`, the order-`2` expansion equals `reverse(half) ++ half` where
`half` is the order-`1` expansion at half the time. -/
theorem order_two_reverse_half {K : Type} [DivisionRing K] {T : Type}
    (fourPow : ℚ → K) (L : List T) (t : K) (r : ℕ)
    (hL : L ≠ []) (hr : 1 ≤ r) :
    recursive_expansion fourPow L r t 2 =
      (recursive_expansion fourPow L r (t / 2) 1).map
        fun half => half.reverse ++ half := by
  simp [recursive_expansion]

/-- Witness for C2: the concrete scenario of the claim, terms
`[(1, X), (1, Z)]`, coefficient `2`, order `2`, reps `1`, with the exact
four-factor palindromic output at time `1` per factor. -/
theorem order_two_reverse_half_witness :
    ([((1 : ℚ), PGen.X), ((1 : ℚ), PGen.Z)] : List (ℚ × PGen)) ≠ [] ∧ (1 : ℕ) ≤ 1 ∧
    recursive_expansion fourPowQ [((1 : ℚ), PGen.X), ((1 : ℚ), PGen.Z)] 1 (2 : ℚ) 2 =
      some [⟨((1 : ℚ), PGen.Z), 1⟩, ⟨((1 : ℚ), PGen.X), 1⟩,
        ⟨((1 : ℚ), PGen.X), 1⟩, ⟨((1 : ℚ), PGen.Z), 1⟩] := by
  refine ⟨by simp, le_refl 1, ?_⟩
  rw [order_two_reverse_half fourPowQ [((1 : ℚ), PGen.X), ((1 : ℚ), PGen.Z)] (2 : ℚ) 1
    (by simp) (le_refl 1)]
  simp [recursive_expansion, show (2 : ℚ) / 2 = 1 by norm_num]

/-- Claim C3: for every non-empty term list, scalar time and reps at
least `1`, the order-`1` expansion returns, in the original term order,
one factor per term, each at time `t / reps`. -/
theorem order_one_base_case {K : Type} [DivisionRing K] {T : Type}
    (fourPow : ℚ → K) (L : List T) (t : K) (r : ℕ)
    (hL : L ≠ []) (hr : 1 ≤ r) :
    recursive_expansion fourPow L r t 1 =
      some (L.map fun op => ⟨op, t / (r : K)⟩) := by
  simp [recursive_expansion]

/-- Witness for C3: the concrete scenario of the claim, terms
`[(1, X), (1, Z)]`, coefficient `2`, order `1`, reps `1`, producing the
two factors at time `2` in the original order. -/
theorem order_one_base_case_witness :
    ([((1 : ℚ), PGen.X), ((1 : ℚ), PGen.Z)] : List (ℚ × PGen)) ≠ [] ∧ (1 : ℕ) ≤ 1 ∧
    recursive_expansion fourPowQ [((1 : ℚ), PGen.X), ((1 : ℚ), PGen.Z)] 1 (2 : ℚ) 1 =
      some [⟨((1 : ℚ), PGen.X), 2⟩, ⟨((1 : ℚ), PGen.Z), 2⟩] := by
  refine ⟨by simp, le_refl 1, ?_⟩
  rw [order_one_base_case fourPowQ [((1 : ℚ), PGen.X), ((1 : ℚ), PGen.Z)] (2 : ℚ) 1
    (by simp) (le_refl 1)]
  simp

/-- Claim C7: for every non-empty term list with `n` terms, the order-`1`
single-slice output has length exactly `n`, and the order-`2` output has
length exactly twice the length of the order-`1` output computed at half
the time. -/
theorem length_scaling {K : Type} [DivisionRing K] {T : Type}
    (fourPow : ℚ → K) (L : List T) (t : K) (r : ℕ)
    (hL : L ≠ []) (hr : 1 ≤ r) :
    (∃ l1, recursive_expansion fourPow L r t 1 = some l1 ∧
      l1.length = L.length) ∧
    (∃ l2 l1, recursive_expansion fourPow L r t 2 = some l2 ∧
      recursive_expansion fourPow L r (t / 2) 1 = some l1 ∧
      l2.length = 2 * l1.length) := by
  refine ⟨⟨L.map fun op => ⟨op, t / (r : K)⟩, by simp [recursive_expansion], by simp⟩, ?_⟩
  refine ⟨(L.map fun op => ⟨op, t / 2 / (r : K)⟩).reverse ++
      (L.map fun op => ⟨op, t / 2 / (r : K)⟩),
    L.map fun op => ⟨op, t / 2 / (r : K)⟩,
    by simp [recursive_expansion], by simp [recursive_expansion], ?_⟩
  simp [two_mul]

/-- Witness for C7 at terms `[(1, X), (1, Z)]`, time `2`, reps `1`. -/
theorem length_scaling_witness :
    ([((1 : ℚ), PGen.X), ((1 : ℚ), PGen.Z)] : List (ℚ × PGen)) ≠ [] ∧ (1 : ℕ) ≤ 1 ∧
    ((∃ l1, recursive_expansion fourPowQ [((1 : ℚ), PGen.X), ((1 : ℚ), PGen.Z)] 1 (2 : ℚ) 1 =
        some l1 ∧
      l1.length = ([((1 : ℚ), PGen.X), ((1 : ℚ), PGen.Z)] : List (ℚ × PGen)).length) ∧
    (∃ l2 l1, recursive_expansion fourPowQ [((1 : ℚ), PGen.X), ((1 : ℚ), PGen.Z)] 1 (2 : ℚ) 2 =
        some l2 ∧
      recursive_expansion fourPowQ [((1 : ℚ), PGen.X), ((1 : ℚ), PGen.Z)] 1 ((2 : ℚ) / 2) 1 =
        some l1 ∧
      l2.length = 2 * l1.length)) :=
  ⟨by simp, le_refl 1,
    length_scaling fourPowQ [((1 : ℚ), PGen.X), ((1 : ℚ), PGen.Z)] (2 : ℚ) 1
      (by simp) (le_refl 1)⟩

/-- Claim C9: for every non-empty term list, scalar time, reps at least
`1` and even order `k ≥ 2`, the returned list is a palindrome: it equals
its own reversal. -/
theorem even_order_palindrome {K : Type} [DivisionRing K] {T : Type}
    (fourPow : ℚ → K) (L : List T) (t : K) (k r : ℕ)
    (hL : L ≠ []) (hr : 1 ≤ r) (hke : Even k) (hk2 : 2 ≤ k) :
    ∃ l, recursive_expansion fourPow L r t k = some l ∧ l.reverse = l := by
  obtain ⟨l, hl⟩ := rec_total fourPow L r k (by omega) t
  exact ⟨l, hl, rec_even_palindrome fourPow L r k hke hk2 t l hl⟩

/-- Witness for C9 at order `4`, one `X` term, time `2`, reps `1`. -/
theorem even_order_palindrome_witness :
    ([((1 : ℚ), PGen.X)] : List (ℚ × PGen)) ≠ [] ∧ (1 : ℕ) ≤ 1 ∧ Even 4 ∧ 2 ≤ 4 ∧
    ∃ l, recursive_expansion fourPowQ [((1 : ℚ), PGen.X)] 1 (2 : ℚ) 4 = some l ∧
      l.reverse = l :=
  ⟨by simp, le_refl 1, by decide, by omega,
    even_order_palindrome fourPowQ [((1 : ℚ), PGen.X)] (2 : ℚ) 4 1
      (by simp) (le_refl 1) (by decide) (by omega)⟩

/-- Claim C10: the recursion terminates for every order at least `1`
(odd orders included), every term list, every scalar time and every reps
at least `1`, and for even order `k ≥ 2` with `n` input terms the
returned list has length exactly `2 * n * 5 ^ (k / 2 - 1)`. -/
theorem terminates_even_length {K : Type} [DivisionRing K] {T : Type}
    (fourPow : ℚ → K) (L : List T) (r : ℕ) (hr : 1 ≤ r) :
    (∀ k : ℕ, 1 ≤ k → ∀ t : K, ∃ l,
      recursive_expansion fourPow L r t k = some l) ∧
    (∀ k : ℕ, Even k → 2 ≤ k → ∀ t : K, ∃ l,
      recursive_expansion fourPow L r t k = some l ∧
      l.length = 2 * L.length * 5 ^ (k / 2 - 1)) :=
  ⟨rec_total fourPow L r, rec_even_length fourPow L r⟩

/-- Witness for C10 at one `X` term, reps `1`. -/
theorem terminates_even_length_witness :
    (1 : ℕ) ≤ 1 ∧
    ((∀ k : ℕ, 1 ≤ k → ∀ t : ℚ, ∃ l,
      recursive_expansion fourPowQ [((1 : ℚ), PGen.X)] 1 t k = some l) ∧
    (∀ k : ℕ, Even k → 2 ≤ k → ∀ t : ℚ, ∃ l,
      recursive_expansion fourPowQ [((1 : ℚ), PGen.X)] 1 t k = some l ∧
      l.length = 2 * ([((1 : ℚ), PGen.X)] : List (ℚ × PGen)).length * 5 ^ (k / 2 - 1))) :=
  ⟨le_refl 1, terminates_even_length fourPowQ [((1 : ℚ), PGen.X)] 1 (le_refl 1)⟩

/-- Claim C4: for every admissible weighted-sum operand, `convert`
extracts its terms and coefficient, calls the recursion exactly once to
build one repetition-slice, wraps that slice in a composed sequence,
raises it to the power `reps` and applies the library `reduce`, returning
the reduced result. -/
theorem convert_pipeline {K : Type} [DivisionRing K] {T : Type}
    (reduce : ComposedOp (ExpFactor T K) → ComposedOp (ExpFactor T K))
    (fourPow : ℚ → K) (L : List T) (c : K) (order r : ℕ)
    (hord : order = 1 ∨ (Even order ∧ 2 ≤ order)) (hr : 1 ≤ r) (hL : L ≠ []) :
    ∃ comp_list, recursive_expansion fourPow L r c order = some comp_list ∧
      convert reduce fourPow order r (Operand.summedOp L c) =
        some (Except.ok (reduce (ComposedOp.power ⟨comp_list⟩ r))) ∧
      convert reduce fourPow order r (Operand.pauliSumOp L c) =
        some (Except.ok (reduce (ComposedOp.power ⟨comp_list⟩ r))) := by
  have h1 : 1 ≤ order := by rcases hord with h | ⟨h1, h2⟩ <;> omega
  obtain ⟨l, hl⟩ := rec_total fourPow L r order h1 c
  exact ⟨l, hl, by simp [convert, hl], by simp [convert, hl]⟩

/-- Witness for C4 at order `2`, reps `1`, terms `[(1, X), (1, Z)]`,
coefficient `2`, with the identity as the opaque library reduction. -/
theorem convert_pipeline_witness :
    ((2 : ℕ) = 1 ∨ (Even 2 ∧ 2 ≤ 2)) ∧ (1 : ℕ) ≤ 1 ∧
    ([((1 : ℚ), PGen.X), ((1 : ℚ), PGen.Z)] : List (ℚ × PGen)) ≠ [] ∧
    ∃ comp_list,
      recursive_expansion fourPowQ [((1 : ℚ), PGen.X), ((1 : ℚ), PGen.Z)] 1 (2 : ℚ) 2 =
        some comp_list ∧
      convert (fun x => x) fourPowQ 2 1
          (Operand.summedOp [((1 : ℚ), PGen.X), ((1 : ℚ), PGen.Z)] (2 : ℚ)) =
        some (Except.ok (ComposedOp.power ⟨comp_list⟩ 1)) ∧
      convert (fun x => x) fourPowQ 2 1
          (Operand.pauliSumOp [((1 : ℚ), PGen.X), ((1 : ℚ), PGen.Z)] (2 : ℚ)) =
        some (Except.ok (ComposedOp.power ⟨comp_list⟩ 1)) :=
  ⟨Or.inr ⟨by decide, by omega⟩, le_refl 1, by simp,
    convert_pipeline (fun x => x) fourPowQ [((1 : ℚ), PGen.X), ((1 : ℚ), PGen.Z)] (2 : ℚ) 2 1
      (Or.inr ⟨by decide, by omega⟩) (le_refl 1) (by simp)⟩

/-- Claim C6: `convert` accepts exactly the two weighted-sum operand
shapes; every other operand shape yields the type error (raised on line
58, before any recursion), and an admissible shape never yields it. -/
theorem convert_shape_dispatch {K : Type} [DivisionRing K] {T : Type}
    (reduce : ComposedOp (ExpFactor T K) → ComposedOp (ExpFactor T K))
    (fourPow : ℚ → K) :
    (∀ order r : ℕ,
      convert reduce fourPow order r (Operand.other : Operand T K) =
        some (Except.error TrotterError.typeError)) ∧
    (∀ (order r : ℕ) (L : List T) (c : K),
      convert reduce fourPow order r (Operand.summedOp L c) ≠
        some (Except.error TrotterError.typeError) ∧
      convert reduce fourPow order r (Operand.pauliSumOp L c) ≠
        some (Except.error TrotterError.typeError)) := by
  refine ⟨fun order r => rfl, fun order r L c => ⟨?_, ?_⟩⟩
  · rcases h : recursive_expansion fourPow L r c order with _ | l <;>
      simp [convert, h]
  · rcases h : recursive_expansion fourPow L r c order with _ | l <;>
      simp [convert, h]

/-- Claim C8: on valid inputs (admissible operand shape, order `1` or
even at least `2`, reps at least `1`) the conversion is deterministic and
total: it is a pure function, so two invocations at the same arguments
denote the same value, and that value is a successful result. -/
theorem convert_deterministic_total {K : Type} [DivisionRing K] {T : Type}
    (reduce : ComposedOp (ExpFactor T K) → ComposedOp (ExpFactor T K))
    (fourPow : ℚ → K) (L : List T) (c : K) (order r : ℕ) (op : Operand T K)
    (hop : op = Operand.summedOp L c ∨ op = Operand.pauliSumOp L c)
    (hord : order = 1 ∨ (Even order ∧ 2 ≤ order)) (hr : 1 ≤ r) (hL : L ≠ []) :
    convert reduce fourPow order r op = convert reduce fourPow order r op ∧
    ∃ res, convert reduce fourPow order r op = some (Except.ok res) := by
  refine ⟨rfl, ?_⟩
  have h1 : 1 ≤ order := by rcases hord with h | ⟨h1, h2⟩ <;> omega
  obtain ⟨l, hl⟩ := rec_total fourPow L r order h1 c
  rcases hop with rfl | rfl
  · exact ⟨reduce (ComposedOp.power ⟨l⟩ r), by simp [convert, hl]⟩
  · exact ⟨reduce (ComposedOp.power ⟨l⟩ r), by simp [convert, hl]⟩

/-- Witness for C8 at order `1`, reps `1`, a `SummedOp` operand with
terms `[(1, X), (1, Z)]` and coefficient `2`. -/
theorem convert_deterministic_total_witness :
    (Operand.summedOp [((1 : ℚ), PGen.X), ((1 : ℚ), PGen.Z)] (2 : ℚ) =
        Operand.summedOp [((1 : ℚ), PGen.X), ((1 : ℚ), PGen.Z)] (2 : ℚ) ∨
      Operand.summedOp [((1 : ℚ), PGen.X), ((1 : ℚ), PGen.Z)] (2 : ℚ) =
        Operand.pauliSumOp [((1 : ℚ), PGen.X), ((1 : ℚ), PGen.Z)] (2 : ℚ)) ∧
    ((1 : ℕ) = 1 ∨ (Even 1 ∧ 2 ≤ 1)) ∧ (1 : ℕ) ≤ 1 ∧
    ([((1 : ℚ), PGen.X), ((1 : ℚ), PGen.Z)] : List (ℚ × PGen)) ≠ [] ∧
    (convert (fun x => x) fourPowQ 1 1
        (Operand.summedOp [((1 : ℚ), PGen.X), ((1 : ℚ), PGen.Z)] (2 : ℚ)) =
      convert (fun x => x) fourPowQ 1 1
        (Operand.summedOp [((1 : ℚ), PGen.X), ((1 : ℚ), PGen.Z)] (2 : ℚ)) ∧
    ∃ res, convert (fun x => x) fourPowQ 1 1
        (Operand.summedOp [((1 : ℚ), PGen.X), ((1 : ℚ), PGen.Z)] (2 : ℚ)) =
      some (Except.ok res)) :=
  ⟨Or.inl rfl, Or.inl rfl, le_refl 1, by simp,
    convert_deterministic_total (fun x => x) fourPowQ
      [((1 : ℚ), PGen.X), ((1 : ℚ), PGen.Z)] (2 : ℚ) 1 1
      (Operand.summedOp [((1 : ℚ), PGen.X), ((1 : ℚ), PGen.Z)] (2 : ℚ))
      (Or.inl rfl) (Or.inl rfl) (le_refl 1) (by simp)⟩

/-- Claim C5, behavior of the code at the failing input: with `order = 3`
(odd, above `1`), reps `1` and a single `X` term at coefficient `2`,
`convert` silently returns a successful five-factor expansion instead of
raising an error; the source validates neither `order` nor `reps`. -/
theorem order_three_silently_expands :
    ∃ c, convert (fun x => x) fourPowQ 3 1
        (Operand.summedOp [((1 : ℚ), PGen.X)] (2 : ℚ)) = some (Except.ok c) ∧
      c.oplist.length = 5 :=
  ⟨_, rfl, rfl⟩

end Suzuki
